import Mathlib

/-! simplecube: TGA encoder and frame-capture loop

A shallow embedding of `src/simplecube.cpp`.

* C++ `int` values are Lean integers.  Signed arithmetic whose result leaves the
  32-bit range, and every access outside a buffer, is undefined behaviour in C++;
  the embedding stops there with a `Fault` instead of inventing a result.
* `uint8_t` values are `Fin 256`; storing an `int` into a `uint8_t` keeps the value
  modulo 256.
* A pixel buffer is a list of bytes; the in-place mutation of the caller's buffer
  is made explicit by returning the new buffer.
* The file system is an explicit state: which paths `fopen(name, "wb")` can open,
  and the content of every file.  `fwrite` and `fclose` are taken to succeed (the
  program never looks at their results).
* Console output is not part of the model.
-/

namespace SimpleCube

/-! ## Machine values -/

/-- One `uint8_t`. -/
abbrev Byte := Fin 256

/-- The ways an execution can leave defined behaviour, plus the exhaustion of the
iteration budget of a loop of the embedding. -/
inductive Fault where
  | overflow
  | outOfBounds
  | outOfFuel
  deriving DecidableEq, Repr

/-- Largest value of a C++ `int`. -/
abbrev INT_MAX : Int := 2147483647

/-- Smallest value of a C++ `int`. -/
abbrev INT_MIN : Int := -2147483648

/-- The result of a signed `int` operation: the exact value when it is representable. -/
def int32 (x : Int) : Except Fault Int :=
  if INT_MIN ≤ x ∧ x ≤ INT_MAX then .ok x else .error .overflow

/-- Conversion of an `int` to `uint8_t`. -/
def u8 (x : Int) : Byte := ⟨(x % 256).toNat, by omega⟩

/-- Evaluation of `data[i]` as an rvalue. -/
def readByte (data : List Byte) (i : Int) : Except Fault Byte :=
  if i < 0 then .error .outOfBounds
  else match data[i.toNat]? with
    | some b => .ok b
    | none => .error .outOfBounds

/-- The assignment `data[i] = v`. -/
def writeByte (data : List Byte) (i : Int) (v : Byte) : Except Fault (List Byte) :=
  if 0 ≤ i ∧ i.toNat < data.length then .ok (data.set i.toNat v) else .error .outOfBounds

/-! ## File system -/

/-- The part of the file system the program can observe: whether a path can be opened
for writing, and what every file contains. -/
structure FileSystem where
  canOpen : String → Bool
  content : String → Option (List Byte)

/-- Model of `fopen(name, "wb")`: `none` is the null handle and leaves the file system
as it was; otherwise the file exists afterwards and is empty.  The open stream is
identified by its path. -/
def fopen_wb (fs : FileSystem) (name : String) : Option FileSystem :=
  if fs.canOpen name then
    some { fs with content := fun p => if p = name then some [] else fs.content p }
  else none

/-- Model of `fwrite(buf, 1, n, handle)`: the bytes are appended to the open file. -/
def fwrite (fs : FileSystem) (name : String) (buf : List Byte) : FileSystem :=
  { fs with content := fun p =>
      if p = name then some ((fs.content p).getD [] ++ buf) else fs.content p }

/-- Model of `fclose(handle)`. -/
def fclose (fs : FileSystem) (_name : String) : FileSystem := fs

/-! ## Image_WriteTGA -/

/-- The macro `TARGAHEADERSIZE`. -/
def TARGAHEADERSIZE : Nat := 18

/-- The header block of `Image_WriteTGA`: `memset` to zero, then the six assignments. -/
def tgaHeader (width height bpp : Int) (upsidedown : Bool) : List Byte :=
  let header := List.replicate TARGAHEADERSIZE (0 : Byte)
  let header := header.set 2 2
  let header := header.set 12 (u8 (Int.land width 255))
  let header := header.set 13 (u8 (width >>> (8 : Nat)))
  let header := header.set 14 (u8 (Int.land height 255))
  let header := header.set 15 (u8 (height >>> (8 : Nat)))
  let header := header.set 16 (u8 bpp)
  if upsidedown then header.set 17 0x20 else header

/-- The loop `for (int i = ...; i < size; i += bytes)` swapping `data[i]` and
`data[i + 2]`, started at `i` with an iteration budget `fuel`. -/
def swapLoop (bytes size : Int) : Nat → Int → List Byte → Except Fault (List Byte)
  | fuel, i, data =>
    if i < size then
      match fuel with
      | 0 => .error .outOfFuel
      | fuel + 1 => do
        let temp ← readByte data i
        let i2 ← int32 (i + 2)
        let b ← readByte data i2
        let data ← writeByte data i b
        let data ← writeByte data i2 temp
        let inext ← int32 (i + bytes)
        swapLoop bytes size fuel inext data
    else .ok data

/-- The block of `size` bytes that `fwrite(data, 1, size, handle)` reads from `data`;
a negative `size` converts to a huge `size_t`. -/
def readBlock (data : List Byte) (size : Int) : Except Fault (List Byte) :=
  if 0 ≤ size ∧ size.toNat ≤ data.length then .ok (data.take size.toNat)
  else .error .outOfBounds

/-- The red/blue swap of `Image_WriteTGA` on its own: `bytes`, `size` and the loop. -/
def swapRedBlue (data : List Byte) (width height bpp : Int) :
    Except Fault (Int × List Byte) := do
  let bytes := Int.tdiv bpp 8
  let wh ← int32 (width * height)
  let size ← int32 (wh * bytes)
  let data ← swapLoop bytes size (size.toNat + 1) 0 data
  .ok (size, data)

/-- `Image_WriteTGA(name, data, width, height, bpp, upsidedown)`.  The result is the
returned `bool`, the caller's buffer after the call and the file system after the
call. -/
def Image_WriteTGA (fs : FileSystem) (name : String) (data : List Byte)
    (width height bpp : Int) (upsidedown : Bool) :
    Except Fault (Bool × List Byte × FileSystem) :=
  match fopen_wb fs name with
  | none => .ok (false, data, fs)
  | some fs => do
    let header := tgaHeader width height bpp upsidedown
    let (size, data) ← swapRedBlue data width height bpp
    let fs := fwrite fs name header
    let payload ← readBlock data size
    let fs := fwrite fs name payload
    let fs := fclose fs name
    .ok (true, data, fs)

/-! ## screenshot -/

/-- The macro `WIDTH`. -/
def WIDTH : Int := 800

/-- The macro `HEIGHT`. -/
def HEIGHT : Int := 800

/-- Decimal digits of `n`, least significant first; `fuel` bounds the number of
digits produced and `n + 1` is always enough. -/
def digitsRev : Nat → Nat → List Nat
  | 0, _ => []
  | fuel + 1, n => if n < 10 then [n] else n % 10 :: digitsRev fuel (n / 10)

/-- The decimal digits of `n` as characters, most significant first. -/
def decimal (n : Nat) : List Char :=
  ((digitsRev (n + 1) n).reverse).map Nat.digitChar

/-- Model of the `printf` conversion `%04i`: the sign if negative, then zeros up to a
total width of four, then the decimal digits. -/
def fmt04i (x : Int) : List Char :=
  let digits := decimal x.natAbs
  if x < 0 then '-' :: (List.replicate (3 - digits.length) '0' ++ digits)
  else List.replicate (4 - digits.length) '0' ++ digits

/-- The text that the format `"frame%04i.tga"` produces for `frame`. -/
def frameText (frame : Int) : List Char :=
  "frame".data ++ fmt04i frame ++ ".tga".data

/-- Model of `snprintf(buf, size, ...)`: the first `size - 1` characters of the
formatted text are stored (followed by the terminator). -/
def snprintf (size : Nat) (text : List Char) : String :=
  String.mk (text.take (size - 1))

/-- The file name built by `screenshot`: `snprintf(tganame, sizeof(tganame),
"frame%04i.tga", frame)` with `char tganame[16]`. -/
def tganame (frame : Int) : String := snprintf 16 (frameText frame)

/-- The interface of class `GlScene` (`cube-gles2.h`); its implementation is not
part of the sources, so the renderer is a parameter whose calls are taken to return.
`write_buffer` fills the caller's buffer in place, hence keeps its length. -/
structure GlScene (σ : Type) where
  create : σ
  set_viewport : σ → Int → Int → σ
  draw : σ → Nat → σ
  write_buffer : σ → List Byte → Int → Int → List Byte
  write_buffer_length : ∀ s buf w h, (write_buffer s buf w h).length = buf.length

/-- The calls made by the body of the frame loop of `main`, with the value of the
loop counter at the call. -/
inductive Call where
  | draw (framenum : Nat)
  | screenshot (framenum : Nat)
  deriving DecidableEq, Repr

/-- The state the capture pipeline acts on: file system, renderer state and the
record of the calls made by the frame loop. -/
structure World (σ : Type) where
  fs : FileSystem
  scene : σ
  calls : List Call

/-- `screenshot(frame, scene)`: allocate the buffer, let the scene fill it, build the
file name, write the file.  Both outcomes of the encoder only print a line. -/
def screenshot {σ : Type} (r : GlScene σ) (frame : Int) (w : World σ) :
    Except Fault (World σ) := do
  let buffer := List.replicate (WIDTH * HEIGHT * 4).toNat (0 : Byte)
  let buffer := r.write_buffer w.scene buffer WIDTH HEIGHT
  let name := tganame frame
  let (_written, _buffer, fs) ← Image_WriteTGA w.fs name buffer WIDTH HEIGHT 32 false
  .ok { w with fs := fs }

/-! ## main -/

/-- Outcomes of the EGL calls of `main`, in program order. -/
structure Egl where
  bindAPI : Bool
  getDisplay : Bool
  eglInit : Bool
  getConfigsCount : Bool
  getConfigs : Bool
  chooseConfig : Bool
  numChosen : Int
  createContext : Bool
  createPbufferSurface : Bool
  makeCurrent : Bool

/-- Conversion of a `size_t` to `uint32_t` (the parameter of `GlScene::draw`). -/
def toUInt32 (n : Nat) : Nat := n % 2 ^ 32

/-- Conversion of a `size_t` to `int` (the parameter of `screenshot`). -/
def toInt (n : Nat) : Int := ((n : Int) + 2 ^ 31) % 2 ^ 32 - 2 ^ 31

/-- The loop `for (size_t framenum = ...; framenum <= s_num_frames; framenum++)` of
`main`, started at `framenum` with an iteration budget `fuel`; `size_t` has 64 bits. -/
def frameLoop {σ : Type} (r : GlScene σ) (s_num_frames : Nat) :
    Nat → Nat → World σ → Except Fault (World σ)
  | fuel, framenum, w =>
    if framenum ≤ s_num_frames then
      match fuel with
      | 0 => .error .outOfFuel
      | fuel + 1 => do
        let w := { w with scene := r.draw w.scene (toUInt32 framenum),
                          calls := w.calls ++ [Call.draw framenum] }
        let w := { w with calls := w.calls ++ [Call.screenshot framenum] }
        let w ← screenshot r (toInt framenum) w
        frameLoop r s_num_frames fuel ((framenum + 1) % 2 ^ 64) w
    else .ok w

/-- The part of `main` after the EGL setup: create the scene, set the viewport, run
the frame loop, return 0. -/
def captureFrames {σ : Type} (r : GlScene σ) (s_num_frames : Nat) (fs : FileSystem) :
    Except Fault (Int × World σ) := do
  let scene := r.set_viewport r.create WIDTH HEIGHT
  let w ← frameLoop r s_num_frames (s_num_frames + 1) 1 ⟨fs, scene, []⟩
  .ok (0, w)

/-- The function `main` with its two local settings as parameters: the exit code,
the file system at exit and the calls the frame loop made.  Every failed EGL call
returns -1 before a scene exists. -/
def main_with {σ : Type} (r : GlScene σ) (egl : Egl) (s_verbose : Bool)
    (s_num_frames : Nat) (fs : FileSystem) : Except Fault (Int × FileSystem × List Call) :=
  if !egl.bindAPI then .ok (-1, fs, [])
  else if !egl.getDisplay then .ok (-1, fs, [])
  else if !egl.eglInit then .ok (-1, fs, [])
  else if s_verbose && !egl.getConfigsCount then .ok (-1, fs, [])
  else if s_verbose && !egl.getConfigs then .ok (-1, fs, [])
  else if !egl.chooseConfig || egl.numChosen != 1 then .ok (-1, fs, [])
  else if !egl.createContext then .ok (-1, fs, [])
  else if !egl.createPbufferSurface then .ok (-1, fs, [])
  else if !egl.makeCurrent then .ok (-1, fs, [])
  else do
    let (code, w) ← captureFrames r s_num_frames fs
    .ok (code, w.fs, w.calls)

/-- The function `main`: `s_verbose = 1`, `s_num_frames = 2`. -/
def main {σ : Type} (r : GlScene σ) (egl : Egl) (fs : FileSystem) :
    Except Fault (Int × FileSystem × List Call) :=
  main_with r egl true 2 fs

/-- Every EGL call that `main` checks succeeds. -/
def Egl.setupSucceeds (egl : Egl) (s_verbose : Bool) : Bool :=
  egl.bindAPI && egl.getDisplay && egl.eglInit &&
  (!s_verbose || (egl.getConfigsCount && egl.getConfigs)) &&
  egl.chooseConfig && egl.numChosen == 1 && egl.createContext &&
  egl.createPbufferSurface && egl.makeCurrent

/-! ## Reference descriptions and sample inputs -/

/-- Where the byte at position `j` comes from when bytes 0 and 2 of every
`bytes`-wide pixel are exchanged. -/
def swapSource (bytes j : Nat) : Nat :=
  if j % bytes = 0 then j + 2 else if j % bytes = 2 then j - 2 else j

/-- The buffer with bytes 0 and 2 of every `bytes`-wide pixel exchanged, as the
specification words it. -/
def exchangeRedBlue (bytes : Nat) (data : List Byte) : List Byte :=
  (List.range data.length).map fun j => data.getD (swapSource bytes j) 0

/-- The number written by a list of decimal digits given least significant first. -/
def digitsValue : List Nat → Nat
  | [] => 0
  | d :: ds => d + 10 * digitsValue ds

/-- The number written by a list of decimal digit characters, most significant
first. -/
def readDecimal (cs : List Char) : Nat :=
  cs.foldl (fun acc c => 10 * acc + (c.toNat - 48)) 0

/-- The frame index read back from a file name: the digits after the five
characters of `frame`. -/
def frameOfName (name : String) : Nat :=
  readDecimal ((name.data.drop 5).takeWhile Char.isDigit)

/-- The file system in which the file `name` holds exactly `bytes` and nothing else
differs from `fs`. -/
def FileSystem.store (fs : FileSystem) (name : String) (bytes : List Byte) : FileSystem :=
  { fs with content := fun p => if p = name then some bytes else fs.content p }

/-- One pass of the frame loop as the specification describes it, for the counter
value `i`: render frame `i`, read the pixels back, name the file after `i`, and store
the encoded image when the file can be opened. -/
def captureFrame {σ : Type} (r : GlScene σ) (w : World σ) (i : Nat) : World σ :=
  let scene := r.draw w.scene (toUInt32 i)
  let buffer := r.write_buffer scene (List.replicate (WIDTH * HEIGHT * 4).toNat (0 : Byte))
    WIDTH HEIGHT
  let name := tganame (toInt i)
  { fs := if w.fs.canOpen name then
            w.fs.store name (tgaHeader WIDTH HEIGHT 32 false ++ exchangeRedBlue 4 buffer)
          else w.fs,
    scene := scene,
    calls := w.calls ++ [Call.draw i, Call.screenshot i] }

/-- The renderer state in which frame `k` is read back: viewport set, then frames
1 to `k` drawn in order. -/
def sceneAt {σ : Type} (r : GlScene σ) (k : Nat) : σ :=
  (List.range' 1 k).foldl (fun s i => r.draw s (toUInt32 i))
    (r.set_viewport r.create WIDTH HEIGHT)

/-- The image file of the specification for the renderer state `s`: the header for
`WIDTH` x `HEIGHT`, 32 bits, top-down, then the pixels read back with red and blue
exchanged. -/
def frameFile {σ : Type} (r : GlScene σ) (s : σ) : List Byte :=
  tgaHeader WIDTH HEIGHT 32 false ++ exchangeRedBlue 4
    (r.write_buffer s (List.replicate (WIDTH * HEIGHT * 4).toNat (0 : Byte)) WIDTH HEIGHT)

/-- A file system holding one file in which only `frame0002.tga` can be opened. -/
def oneFileFS : FileSystem :=
  ⟨fun p => p = "frame0002.tga", fun p => if p = "old.tga" then some [1, 2, 3] else none⟩

/-- A renderer without state that leaves the buffer as allocated. -/
def nullScene : GlScene Unit :=
  ⟨(), fun _ _ _ => (), fun _ _ => (), fun _ buf _ _ => buf, fun _ _ _ _ => rfl⟩

/-- An EGL in which every call succeeds. -/
def eglOk : Egl := ⟨true, true, true, true, true, true, 1, true, true, true⟩

/-- The symmetric decoder of the specification: drop the header, then apply the
encoder's red/blue swap to the payload. -/
def decodeTGA (file : List Byte) (width height bpp : Int) : Except Fault (List Byte) :=
  (swapRedBlue (file.drop TARGAHEADERSIZE) width height bpp).map Prod.snd

/-- A file system with no file in which every path can be opened. -/
def emptyFS : FileSystem := ⟨fun _ => true, fun _ => none⟩

/-- A file system with no file in which no path can be opened. -/
def lockedFS : FileSystem := ⟨fun _ => false, fun _ => none⟩

/-! ## Facts about the machine operations -/

theorem int32_ok {x : Int} (h1 : INT_MIN ≤ x) (h2 : x ≤ INT_MAX) : int32 x = .ok x := by
  simp [int32, h1, h2]

theorem int32_overflow {x : Int} (h : INT_MAX < x) : int32 x = .error .overflow := by
  have : ¬ (INT_MIN ≤ x ∧ x ≤ INT_MAX) := fun h2 => absurd h2.2 (not_le.mpr h)
  simp [int32, this]

theorem readByte_ok (data : List Byte) (i : Nat) (h : i < data.length) :
    readByte data (i : Int) = .ok data[i] := by
  simp [readByte, List.getElem?_eq_getElem h]

theorem writeByte_ok (data : List Byte) (i : Nat) (v : Byte) (h : i < data.length) :
    writeByte data (i : Int) v = .ok (data.set i v) := by
  simp [writeByte, h]

/-- One iteration of the swap loop at an index whose pixel lies inside the buffer. -/
theorem swapLoop_step (bytes : Nat) (size : Int) (fuel i : Nat) (data : List Byte)
    (hi : (i : Int) < size) (h0 : i < data.length) (h2 : i + 2 < data.length)
    (hmax : (i : Int) + bytes ≤ INT_MAX) (hmax2 : (i : Int) + 2 ≤ INT_MAX) :
    swapLoop bytes size (fuel + 1) i data =
      swapLoop bytes size fuel ((i + bytes : Nat) : Int)
        ((data.set i (data[i + 2])).set (i + 2) (data[i])) := by
  have e1 : int32 ((i : Int) + 2) = .ok (((i + 2 : Nat)) : Int) := by
    rw [int32_ok (by simp only [INT_MIN]; omega) hmax2]; simp
  have e2 : int32 ((i : Int) + bytes) = .ok (((i + bytes : Nat)) : Int) := by
    rw [int32_ok (by simp only [INT_MIN]; omega) hmax]; simp
  rw [swapLoop]
  simp only [hi, if_true]
  rw [readByte_ok data i h0, e1]
  simp only [bind, Except.bind]
  rw [readByte_ok data (i + 2) h2]
  simp only [bind, Except.bind]
  rw [writeByte_ok data i _ h0]
  simp only [bind, Except.bind]
  rw [writeByte_ok _ (i + 2) _ (by simpa using h2), e2]

/-- Reading the buffer after one exchange of the bytes at `i` and `i + 2`. -/
theorem getElem?_exchange (data : List Byte) (i x : Nat) (h0 : i < data.length)
    (h2 : i + 2 < data.length) :
    ((data.set i (data[i + 2])).set (i + 2) (data[i]))[x]? =
      if x = i + 2 then data[i]? else if x = i then data[i + 2]? else data[x]? := by
  simp only [List.getElem?_set, List.length_set]
  by_cases hx2 : x = i + 2
  · subst hx2; simp [h2, List.getElem?_eq_getElem h0]
  · by_cases hx0 : x = i
    · subst hx0; simp [h0, List.getElem?_eq_getElem h2]
    · have a1 : ¬ (i + 2 = x) := fun h => hx2 h.symm
      have a2 : ¬ (i = x) := fun h => hx0 h.symm
      simp [hx2, hx0, a1, a2]

/-- The swap loop over a buffer of whole pixels of `B ≥ 3` bytes: started at pixel
`k` with fuel for the remaining pixels it ends without a fault, keeps the length and
has exchanged bytes 0 and 2 of every pixel from `k` on. -/
theorem swapLoop_spec (B : Nat) (hB : 3 ≤ B) (size : Int) (hsize : size ≤ INT_MAX) :
    ∀ (m k fuel : Nat) (data : List Byte), data.length = (k + m) * B →
      size = (data.length : Int) → m ≤ fuel →
      ∃ out, swapLoop B size fuel ((k * B : Nat) : Int) data = .ok out ∧
        out.length = data.length ∧
        ∀ p r, r < B → out[p * B + r]? =
          if k ≤ p then
            (if r = 0 then data[p * B + 2]? else if r = 2 then data[p * B]?
             else data[p * B + r]?)
          else data[p * B + r]? := by
  intro m
  induction m with
  | zero =>
    intro k fuel data hlen hs _
    refine ⟨data, ?_, rfl, ?_⟩
    · unfold swapLoop
      have : ¬ (((k * B : Nat) : Int) < size) := by
        rw [hs, hlen]; simp
      rw [if_neg this]
    · intro p r hr
      by_cases hkp : k ≤ p
      · have h1 : k * B ≤ p * B := Nat.mul_le_mul_right B hkp
        have hl : data.length = k * B := by simpa using hlen
        have n1 : data[p * B + r]? = none := List.getElem?_eq_none (by omega)
        have n2 : data[p * B + 2]? = none := List.getElem?_eq_none (by omega)
        have n3 : data[p * B]? = none := List.getElem?_eq_none (by omega)
        simp [hkp, n1, n2, n3]
      · simp [hkp]
  | succ m ih =>
    intro k fuel data hlen hs hfuel
    obtain ⟨f, rfl⟩ : ∃ f, fuel = f + 1 := ⟨fuel - 1, by omega⟩
    have hexp : (k + (m + 1)) * B = k * B + m * B + B := by ring
    have hexp2 : (k + 1 + m) * B = k * B + m * B + B := by ring
    have hexp3 : (k + 1) * B = k * B + B := by ring
    have h0 : k * B < data.length := by omega
    have h2 : k * B + 2 < data.length := by omega
    have hsz : size = ((k * B + m * B + B : Nat) : Int) := by rw [hs, hlen, hexp]
    have hstep := swapLoop_step B size f (k * B) data (by rw [hsz]; push_cast; omega)
      h0 h2 (by simp only [INT_MAX] at hsize ⊢; rw [hsz] at hsize; push_cast at hsize; omega)
      (by simp only [INT_MAX] at hsize ⊢; rw [hsz] at hsize; push_cast at hsize ⊢; omega)
    rw [← hexp3] at hstep
    obtain ⟨out, hout, hlen', hget⟩ := ih (k + 1) f
      ((data.set (k * B) (data[k * B + 2])).set (k * B + 2) (data[k * B]))
      (by simp only [List.length_set]; omega) (by simpa using hs) (by omega)
    refine ⟨out, by rw [hstep, hout], by simpa using hlen', ?_⟩
    intro p r hr
    rw [hget p r hr]
    simp only [getElem?_exchange data (k * B) _ h0 h2]
    rcases Nat.lt_trichotomy p k with hpk | hpk | hpk
    · have h1 : (p + 1) * B ≤ k * B := Nat.mul_le_mul_right B hpk
      have h1b : (p + 1) * B = p * B + B := by ring
      have c1 : ¬ (k + 1 ≤ p) := by omega
      have c2 : ¬ (k ≤ p) := by omega
      have c3 : ¬ (p * B + r = k * B + 2) := by omega
      have c4 : ¬ (p * B + r = k * B) := by omega
      simp [c1, c2, c3, c4]
    · subst hpk
      have c1 : ¬ (p + 1 ≤ p) := by omega
      simp only [c1, if_false, le_refl, if_true]
      by_cases hr0 : r = 0
      · subst hr0; simp
      · by_cases hr2 : r = 2
        · subst hr2; simp
        · have c3 : ¬ (p * B + r = p * B + 2) := by omega
          have c4 : ¬ (p * B + r = p * B) := by omega
          simp [hr0, hr2, c3, c4]
    · have h1 : (k + 1) * B ≤ p * B := Nat.mul_le_mul_right B hpk
      have c1 : k + 1 ≤ p := hpk
      have c2 : k ≤ p := by omega
      have c3 : ¬ (p * B + r = k * B + 2) := by omega
      have c4 : ¬ (p * B + r = k * B) := by omega
      have c5 : ¬ (p * B + 2 = k * B + 2) := by omega
      have c6 : ¬ (p * B + 2 = k * B) := by omega
      have c7 : ¬ (p * B = k * B + 2) := by omega
      have c8 : ¬ (p * B = k * B) := by omega
      simp [c1, c2, c3, c4, c5, c6, c7, c8]

theorem length_exchangeRedBlue (B : Nat) (data : List Byte) :
    (exchangeRedBlue B data).length = data.length := by
  simp [exchangeRedBlue]

/-- Reading the reference buffer at byte `r` of pixel `p`, for a buffer of whole
pixels. -/
theorem getElem?_exchangeRedBlue (B n : Nat) (hB : 3 ≤ B) (data : List Byte)
    (hlen : data.length = n * B) (p r : Nat) (hr : r < B) :
    (exchangeRedBlue B data)[p * B + r]? =
      if r = 0 then data[p * B + 2]? else if r = 2 then data[p * B]?
      else data[p * B + r]? := by
  have hmod : (p * B + r) % B = r := by
    rw [Nat.add_comm, Nat.add_mul_mod_self_right, Nat.mod_eq_of_lt hr]
  by_cases hp : p < n
  · have h1 : (p + 1) * B ≤ n * B := Nat.mul_le_mul_right B hp
    have h1b : (p + 1) * B = p * B + B := by ring
    have hj : p * B + r < data.length := by omega
    have hsrc : swapSource B (p * B + r) < data.length := by
      unfold swapSource; rw [hmod]; split_ifs <;> omega
    simp only [exchangeRedBlue, List.getElem?_map, List.getElem?_range hj, Option.map_some',
      List.getD_eq_getElem?_getD, List.getElem?_eq_getElem hsrc, Option.getD_some]
    rw [← List.getElem?_eq_getElem hsrc]
    unfold swapSource; rw [hmod]
    by_cases hr0 : r = 0
    · subst hr0; simp
    · by_cases hr2 : r = 2
      · subst hr2; simp
      · simp [hr0, hr2]
  · have h1 : n * B ≤ p * B := Nat.mul_le_mul_right B (by omega)
    have n0 : (exchangeRedBlue B data)[p * B + r]? = none :=
      List.getElem?_eq_none (by rw [length_exchangeRedBlue]; omega)
    have n1 : data[p * B + r]? = none := List.getElem?_eq_none (by omega)
    have n2 : data[p * B + 2]? = none := List.getElem?_eq_none (by omega)
    have n3 : data[p * B]? = none := List.getElem?_eq_none (by omega)
    simp [n0, n1, n2, n3]

/-- The whole swap loop on a buffer of `n` pixels of `B ≥ 3` bytes. -/
theorem swapLoop_whole (B n fuel : Nat) (hB : 3 ≤ B) (data : List Byte)
    (hlen : data.length = n * B) (hfit : (data.length : Int) ≤ INT_MAX) (hfuel : n ≤ fuel) :
    swapLoop B (data.length : Int) fuel 0 data = .ok (exchangeRedBlue B data) := by
  obtain ⟨out, hout, hlen', hget⟩ := swapLoop_spec B hB data.length hfit n 0 fuel data
    (by simpa using hlen) rfl hfuel
  have hout' : swapLoop B (data.length : Int) fuel 0 data = .ok out := by simpa using hout
  rw [hout']
  congr 1
  apply List.ext_getElem?
  intro j
  have hj : j = (j / B) * B + j % B := by
    rw [Nat.mul_comm]; exact (Nat.div_add_mod j B).symm
  have hr : j % B < B := Nat.mod_lt _ (by omega)
  rw [hj, hget _ _ hr, getElem?_exchangeRedBlue B n hB data hlen _ _ hr]
  simp

/-- A buffer of exactly `width * height * B` bytes with `B ≥ 3` holds a whole number
of pixels, and that number is `width * height`. -/
theorem pixel_count (width height : Int) (B : Nat) (hB : 3 ≤ B) (len : Nat)
    (hlen : (len : Int) = width * height * B) :
    0 ≤ width * height ∧ width * height ≤ len ∧ len = (width * height).toNat * B := by
  have hBz : (3 : Int) ≤ (B : Int) := by exact_mod_cast hB
  have hlen0 : (0 : Int) ≤ (len : Int) := Int.ofNat_nonneg len
  have h0 : 0 ≤ width * height := by
    by_contra hneg
    push_neg at hneg
    have : width * height * B < 0 := by nlinarith
    omega
  refine ⟨h0, by nlinarith, ?_⟩
  have : ((len : Nat) : Int) = (((width * height).toNat * B : Nat) : Int) := by
    push_cast
    rw [Int.toNat_of_nonneg h0]
    exact hlen
  exact_mod_cast this

/-- The red/blue swap on a buffer of exactly `width * height * B` bytes, `B ≥ 3`, whose
size is representable: no fault, and the result is the reference buffer. -/
theorem swapRedBlue_ok (data : List Byte) (width height bpp : Int) (B : Nat)
    (hbytes : Int.tdiv bpp 8 = B) (hB : 3 ≤ B)
    (hlen : (data.length : Int) = width * height * B)
    (hfit : width * height * B ≤ INT_MAX) :
    swapRedBlue data width height bpp = .ok ((data.length : Int), exchangeRedBlue B data) := by
  obtain ⟨h0, h1, hn⟩ := pixel_count width height B hB data.length hlen
  have hfit' : (data.length : Int) ≤ INT_MAX := by rw [hlen]; exact hfit
  unfold swapRedBlue
  rw [int32_ok (by simp only [INT_MIN]; omega) (by simp only [INT_MAX] at hfit' ⊢; omega)]
  simp only [bind, Except.bind, hbytes]
  rw [int32_ok (by simp only [INT_MIN]; omega) hfit]
  simp only [← hlen, Int.toNat_ofNat]
  rw [swapLoop_whole B (width * height).toNat _ hB data hn hfit'
    (by
      have : (width * height).toNat ≤ (width * height).toNat * B :=
        Nat.le_mul_of_pos_right _ (by omega)
      omega)]

theorem readBlock_all (data : List Byte) : readBlock data (data.length : Int) = .ok data := by
  simp [readBlock]

theorem fopen_wb_fail (fs : FileSystem) (name : String) (h : fs.canOpen name = false) :
    fopen_wb fs name = none := by
  simp [fopen_wb, h]

theorem fopen_wb_ok (fs : FileSystem) (name : String) (h : fs.canOpen name = true) :
    fopen_wb fs name = some (fs.store name []) := by
  simp [fopen_wb, h, FileSystem.store]

theorem fwrite_store (fs : FileSystem) (name : String) (old buf : List Byte) :
    fwrite (fs.store name old) name buf = fs.store name (old ++ buf) := by
  simp only [fwrite, FileSystem.store, FileSystem.mk.injEq, true_and]
  funext p
  by_cases hp : p = name <;> simp [hp]

/-- When the path cannot be opened the call returns `false` at once. -/
theorem Image_WriteTGA_fail (fs : FileSystem) (name : String) (data : List Byte)
    (width height bpp : Int) (upsidedown : Bool) (h : fs.canOpen name = false) :
    Image_WriteTGA fs name data width height bpp upsidedown = .ok (false, data, fs) := by
  simp [Image_WriteTGA, fopen_wb_fail fs name h]

/-- When the path can be opened and the buffer holds exactly `width * height * B`
bytes, `B ≥ 3`, of representable size, the call returns `true`, the buffer is the
reference buffer and the file holds the header followed by that buffer. -/
theorem Image_WriteTGA_ok (fs : FileSystem) (name : String) (data : List Byte)
    (width height bpp : Int) (upsidedown : Bool) (B : Nat)
    (hbytes : Int.tdiv bpp 8 = B) (hB : 3 ≤ B)
    (hlen : (data.length : Int) = width * height * B)
    (hfit : width * height * B ≤ INT_MAX) (hopen : fs.canOpen name = true) :
    Image_WriteTGA fs name data width height bpp upsidedown =
      .ok (true, exchangeRedBlue B data,
        fs.store name (tgaHeader width height bpp upsidedown ++ exchangeRedBlue B data)) := by
  unfold Image_WriteTGA
  rw [fopen_wb_ok fs name hopen]
  simp only [swapRedBlue_ok data width height bpp B hbytes hB hlen hfit, bind, Except.bind]
  have hl : ((data.length : Nat) : Int) = ((exchangeRedBlue B data).length : Int) := by
    rw [length_exchangeRedBlue]
  rw [hl, readBlock_all]
  simp only [fclose, fwrite_store, List.nil_append]

/-! ## The iteration budget of the swap loop is never exhausted -/

theorem bind_ne_outOfFuel {α β : Type} (x : Except Fault α) (f : α → Except Fault β)
    (hx : x ≠ .error .outOfFuel) (hf : ∀ a, x = .ok a → f a ≠ .error .outOfFuel) :
    (x >>= f) ≠ .error .outOfFuel := by
  cases x with
  | error e =>
    intro h
    exact hx (by simpa [bind, Except.bind] using h)
  | ok a => exact hf a rfl

theorem readByte_ne_outOfFuel (data : List Byte) (i : Int) :
    readByte data i ≠ .error .outOfFuel := by
  unfold readByte
  split
  · simp
  · split <;> simp

theorem writeByte_ne_outOfFuel (data : List Byte) (i : Int) (v : Byte) :
    writeByte data i v ≠ .error .outOfFuel := by
  unfold writeByte
  split <;> simp

theorem int32_ne_outOfFuel (x : Int) : int32 x ≠ .error .outOfFuel := by
  unfold int32
  split <;> simp

theorem int32_val (x y : Int) (h : int32 x = .ok y) : y = x := by
  unfold int32 at h
  split at h
  · exact (Except.ok.inj h).symm
  · cases h

/-- With a positive step, a budget of `size - i` iterations is enough. -/
theorem swapLoop_fuel (bytes size : Int) (hb : 1 ≤ bytes) :
    ∀ (fuel : Nat) (i : Int) (data : List Byte), (size - i).toNat ≤ fuel →
      swapLoop bytes size fuel i data ≠ .error .outOfFuel := by
  intro fuel
  induction fuel with
  | zero =>
    intro i data h
    unfold swapLoop
    rw [if_neg (by omega)]
    simp
  | succ fuel ih =>
    intro i data h
    rw [swapLoop]
    by_cases hi : i < size
    · rw [if_pos hi]
      refine bind_ne_outOfFuel _ _ (readByte_ne_outOfFuel _ _) (fun temp _ => ?_)
      refine bind_ne_outOfFuel _ _ (int32_ne_outOfFuel _) (fun i2 _ => ?_)
      refine bind_ne_outOfFuel _ _ (readByte_ne_outOfFuel _ _) (fun b _ => ?_)
      refine bind_ne_outOfFuel _ _ (writeByte_ne_outOfFuel _ _ _) (fun d1 _ => ?_)
      refine bind_ne_outOfFuel _ _ (writeByte_ne_outOfFuel _ _ _) (fun d2 _ => ?_)
      refine bind_ne_outOfFuel _ _ (int32_ne_outOfFuel _) (fun inext h6 => ?_)
      have := int32_val _ _ h6
      subst this
      exact ih (i + bytes) d2 (by omega)
    · rw [if_neg hi]
      simp

/-- With a negative step the second iteration indexes below the buffer. -/
theorem swapLoop_fuel_neg (bytes size : Int) (hb : bytes < 0) (hs : 0 < size)
    (fuel : Nat) (data : List Byte) :
    swapLoop bytes size (fuel + 2) 0 data ≠ .error .outOfFuel := by
  rw [swapLoop, if_pos hs]
  refine bind_ne_outOfFuel _ _ (readByte_ne_outOfFuel _ _) (fun temp _ => ?_)
  refine bind_ne_outOfFuel _ _ (int32_ne_outOfFuel _) (fun i2 _ => ?_)
  refine bind_ne_outOfFuel _ _ (readByte_ne_outOfFuel _ _) (fun b _ => ?_)
  refine bind_ne_outOfFuel _ _ (writeByte_ne_outOfFuel _ _ _) (fun d1 _ => ?_)
  refine bind_ne_outOfFuel _ _ (writeByte_ne_outOfFuel _ _ _) (fun d2 _ => ?_)
  refine bind_ne_outOfFuel _ _ (int32_ne_outOfFuel _) (fun inext h6 => ?_)
  have := int32_val _ _ h6
  subst this
  rw [swapLoop, if_pos (by omega)]
  have hread : readByte d2 (0 + bytes) = .error .outOfBounds := by
    have hneg : (0 : Int) + bytes < 0 := by omega
    unfold readByte
    rw [if_pos hneg]
  rw [hread]
  simp [bind, Except.bind]

/-- The swap of `Image_WriteTGA` always ends: in a result, or in a fault that stands
for undefined behaviour of the C++ code. -/
theorem swapRedBlue_fuel (data : List Byte) (width height bpp : Int) :
    swapRedBlue data width height bpp ≠ .error .outOfFuel := by
  unfold swapRedBlue
  refine bind_ne_outOfFuel _ _ (int32_ne_outOfFuel _) (fun wh _ => ?_)
  refine bind_ne_outOfFuel _ _ (int32_ne_outOfFuel _) (fun size h2 => ?_)
  have hsz := int32_val _ _ h2
  refine bind_ne_outOfFuel _ _ ?_ (fun d _ => by simp)
  by_cases hb : 1 ≤ Int.tdiv bpp 8
  · exact swapLoop_fuel _ _ hb _ _ _ (by omega)
  · by_cases hs : 0 < size
    · have hb0 : Int.tdiv bpp 8 ≠ 0 := by
        intro h0
        rw [h0] at hsz
        omega
      obtain ⟨f, hf⟩ : ∃ f, size.toNat + 1 = f + 2 := ⟨size.toNat - 1, by omega⟩
      rw [hf]
      exact swapLoop_fuel_neg _ _ (by omega) hs f data
    · unfold swapLoop
      rw [if_neg hs]
      simp

/-- `Image_WriteTGA` always ends: in a result, or in a fault that stands for
undefined behaviour of the C++ code. -/
theorem Image_WriteTGA_fuel (fs : FileSystem) (name : String) (data : List Byte)
    (width height bpp : Int) (upsidedown : Bool) :
    Image_WriteTGA fs name data width height bpp upsidedown ≠ .error .outOfFuel := by
  unfold Image_WriteTGA
  cases fopen_wb fs name with
  | none => simp
  | some fs1 =>
    refine bind_ne_outOfFuel _ _ (swapRedBlue_fuel _ _ _ _) (fun sd _ => ?_)
    refine bind_ne_outOfFuel _ _ ?_ (fun payload _ => by simp)
    unfold readBlock
    split <;> simp

/-! ## Decimal formatting -/

theorem digitsRev_value : ∀ (fuel n : Nat), n < fuel → digitsValue (digitsRev fuel n) = n := by
  intro fuel
  induction fuel with
  | zero => intro n h; omega
  | succ fuel ih =>
    intro n h
    unfold digitsRev
    by_cases hn : n < 10
    · simp [hn, digitsValue]
    · simp only [hn, if_false, digitsValue]
      rw [ih (n / 10) (by omega)]
      omega

theorem digitsRev_lt : ∀ (fuel n : Nat), ∀ d ∈ digitsRev fuel n, d < 10 := by
  intro fuel
  induction fuel with
  | zero => intro n d hd; simp [digitsRev] at hd
  | succ fuel ih =>
    intro n d hd
    unfold digitsRev at hd
    by_cases hn : n < 10
    · simp [hn] at hd; omega
    · simp only [hn, if_false, List.mem_cons] at hd
      rcases hd with rfl | hd
      · omega
      · exact ih _ d hd

theorem digitsRev_length_pos (fuel n : Nat) : 0 < (digitsRev (fuel + 1) n).length := by
  unfold digitsRev
  by_cases hn : n < 10 <;> simp [hn]

theorem digitsRev_length_le : ∀ (fuel n k : Nat), n < 10 ^ (k + 1) →
    (digitsRev fuel n).length ≤ k + 1 := by
  intro fuel
  induction fuel with
  | zero => intro n k _; simp [digitsRev]
  | succ fuel ih =>
    intro n k h
    unfold digitsRev
    by_cases hn : n < 10
    · simp [hn]
    · simp only [hn, if_false, List.length_cons]
      cases k with
      | zero => simp at h; omega
      | succ k =>
        have : n / 10 < 10 ^ (k + 1) := by
          rw [pow_succ] at h
          omega
        have := ih (n / 10) k this
        omega

theorem digitChar_isDigit (d : Nat) (h : d < 10) : (Nat.digitChar d).isDigit = true := by
  interval_cases d <;> decide

theorem digitChar_toNat (d : Nat) (h : d < 10) : (Nat.digitChar d).toNat - 48 = d := by
  interval_cases d <;> decide

theorem decimal_length_pos (n : Nat) : 0 < (decimal n).length := by
  simp only [decimal, List.length_map, List.length_reverse]
  exact digitsRev_length_pos n n

theorem decimal_length_le (n k : Nat) (h : n < 10 ^ (k + 1)) : (decimal n).length ≤ k + 1 := by
  simp only [decimal, List.length_map, List.length_reverse]
  exact digitsRev_length_le _ n k h

theorem decimal_isDigit (n : Nat) : ∀ c ∈ decimal n, c.isDigit = true := by
  intro c hc
  simp only [decimal, List.mem_map, List.mem_reverse] at hc
  obtain ⟨d, hd, rfl⟩ := hc
  exact digitChar_isDigit d (digitsRev_lt _ _ d hd)

theorem readDecimal_snoc (cs : List Char) (c : Char) :
    readDecimal (cs ++ [c]) = 10 * readDecimal cs + (c.toNat - 48) := by
  simp [readDecimal, List.foldl_append]

theorem readDecimal_digits (ds : List Nat) (h : ∀ d ∈ ds, d < 10) :
    readDecimal (ds.reverse.map Nat.digitChar) = digitsValue ds := by
  induction ds with
  | nil => rfl
  | cons d ds ih =>
    rw [List.reverse_cons, List.map_append, List.map_singleton, readDecimal_snoc,
      ih (fun x hx => h x (List.mem_cons_of_mem _ hx)),
      digitChar_toNat d (h d (List.mem_cons_self _ _))]
    simp only [digitsValue]
    omega

theorem readDecimal_decimal (n : Nat) : readDecimal (decimal n) = n := by
  unfold decimal
  rw [readDecimal_digits _ (digitsRev_lt _ _), digitsRev_value _ _ (Nat.lt_succ_self n)]

theorem readDecimal_zeros (z : Nat) (cs : List Char) :
    readDecimal (List.replicate z '0' ++ cs) = readDecimal cs := by
  induction z with
  | zero => simp
  | succ z ih =>
    rw [List.replicate_succ, List.cons_append]
    unfold readDecimal at ih ⊢
    rw [List.foldl_cons]
    exact ih

theorem frame_data : "frame".data = ['f', 'r', 'a', 'm', 'e'] := rfl

theorem tga_data : ".tga".data = ['.', 't', 'g', 'a'] := rfl

/-- The `%04i` text of a non-negative value: zeros, then the digits. -/
theorem fmt04i_nonneg (x : Int) (hx : 0 ≤ x) :
    fmt04i x = List.replicate (4 - (decimal x.toNat).length) '0' ++ decimal x.toNat := by
  have h1 : ¬ (x < 0) := by omega
  have h2 : x.natAbs = x.toNat := by omega
  simp [fmt04i, h1, h2]

theorem fmt04i_isDigit (x : Int) (hx : 0 ≤ x) : ∀ c ∈ fmt04i x, c.isDigit = true := by
  intro c hc
  rw [fmt04i_nonneg x hx, List.mem_append] at hc
  rcases hc with hc | hc
  · rw [List.mem_replicate] at hc
    rw [hc.2]; decide
  · exact decimal_isDigit _ c hc

theorem fmt04i_length (x : Int) (hx : 0 ≤ x) :
    (fmt04i x).length = max 4 (decimal x.toNat).length := by
  rw [fmt04i_nonneg x hx]
  simp only [List.length_append, List.length_replicate]
  omega

theorem fmt04i_length_le (x : Int) (hx : 0 ≤ x) (hmax : x ≤ INT_MAX) :
    (fmt04i x).length ≤ 10 := by
  rw [fmt04i_length x hx]
  have : x.toNat < 10 ^ (9 + 1) := by simp only [INT_MAX] at hmax; omega
  have := decimal_length_le x.toNat 9 this
  omega

theorem readDecimal_fmt04i (x : Int) (hx : 0 ≤ x) : readDecimal (fmt04i x) = x.toNat := by
  rw [fmt04i_nonneg x hx, readDecimal_zeros, readDecimal_decimal]

theorem takeWhile_append_of_all {α : Type} (p : α → Bool) (l r : List α)
    (h : ∀ c ∈ l, p c = true) : (l ++ r).takeWhile p = l ++ r.takeWhile p := by
  induction l with
  | nil => rfl
  | cons a l ih =>
    rw [List.cons_append, List.takeWhile_cons, h a (List.mem_cons_self _ _)]
    simp only [if_true, List.cons_append]
    rw [ih (fun c hc => h c (List.mem_cons_of_mem _ hc))]

theorem takeWhile_take_tga (k : Nat) :
    ((['.', 't', 'g', 'a'] : List Char).take k).takeWhile Char.isDigit = [] := by
  cases k with
  | zero => rfl
  | succ k => rfl

/-- The stored name of a non-negative `int`: `frame`, the whole `%04i` text, and as
much of `.tga` as still fits. -/
theorem tganame_data (x : Int) (hx : 0 ≤ x) (hmax : x ≤ INT_MAX) :
    (tganame x).data =
      ['f', 'r', 'a', 'm', 'e'] ++ fmt04i x ++
        (['.', 't', 'g', 'a'] : List Char).take (10 - (fmt04i x).length) := by
  have hl := fmt04i_length_le x hx hmax
  simp only [tganame, snprintf, frameText, frame_data, tga_data]
  rw [List.take_append_eq_append_take]
  have e1 : (['f', 'r', 'a', 'm', 'e'] ++ fmt04i x).length = 5 + (fmt04i x).length := by
    simp; omega
  rw [List.take_of_length_le (by rw [e1]; omega), e1]
  congr 2
  omega

theorem frameOfName_tganame (x : Int) (hx : 0 ≤ x) (hmax : x ≤ INT_MAX) :
    frameOfName (tganame x) = x.toNat := by
  unfold frameOfName
  rw [tganame_data x hx hmax, List.append_assoc]
  have : (['f', 'r', 'a', 'm', 'e'] ++ (fmt04i x ++
      (['.', 't', 'g', 'a'] : List Char).take (10 - (fmt04i x).length))).drop 5 =
      fmt04i x ++ (['.', 't', 'g', 'a'] : List Char).take (10 - (fmt04i x).length) := rfl
  rw [this, takeWhile_append_of_all _ _ _ (fmt04i_isDigit x hx), takeWhile_take_tga,
    List.append_nil, readDecimal_fmt04i x hx]

/-! ## The capture pipeline -/

theorem frame_size : WIDTH * HEIGHT * 4 = 2560000 := by
  simp only [WIDTH, HEIGHT]; norm_num

/-- `screenshot` never faults: it stores the encoded frame when the file can be
opened and changes nothing otherwise. -/
theorem screenshot_eq {σ : Type} (r : GlScene σ) (frame : Int) (w : World σ) :
    screenshot r frame w = .ok { w with fs := (
      if w.fs.canOpen (tganame frame) then
        w.fs.store (tganame frame) (tgaHeader WIDTH HEIGHT 32 false ++ exchangeRedBlue 4
          (r.write_buffer w.scene (List.replicate (WIDTH * HEIGHT * 4).toNat (0 : Byte))
            WIDTH HEIGHT))
      else w.fs) } := by
  unfold screenshot
  dsimp only
  by_cases hopen : w.fs.canOpen (tganame frame) = true
  · have hlen : (((r.write_buffer w.scene (List.replicate (WIDTH * HEIGHT * 4).toNat (0 : Byte))
        WIDTH HEIGHT).length : Nat) : Int) = WIDTH * HEIGHT * ((4 : Nat) : Int) := by
      rw [r.write_buffer_length, List.length_replicate, frame_size]; rfl
    rw [Image_WriteTGA_ok w.fs (tganame frame) _ WIDTH HEIGHT 32 false 4 (by decide)
      (by decide) hlen (by rw [show ((4 : Nat) : Int) = 4 from rfl, frame_size]; decide) hopen]
    simp [hopen, bind, Except.bind]
  · have hclosed : w.fs.canOpen (tganame frame) = false := by simpa using hopen
    rw [Image_WriteTGA_fail w.fs (tganame frame) _ WIDTH HEIGHT 32 false hclosed]
    simp [hclosed, bind, Except.bind]

/-- The frame loop as a fold of `captureFrame` over the remaining counter values. -/
theorem frameLoop_eq {σ : Type} (r : GlScene σ) (N : Nat) (hN : N < 2 ^ 32) :
    ∀ (cnt f fuel : Nat) (w : World σ), f + cnt = N + 1 → cnt ≤ fuel →
      frameLoop r N fuel f w = .ok ((List.range' f cnt).foldl (captureFrame r) w) := by
  intro cnt
  induction cnt with
  | zero =>
    intro f fuel w hf _
    unfold frameLoop
    rw [if_neg (by omega)]
    rfl
  | succ cnt ih =>
    intro f fuel w hf hfuel
    obtain ⟨fuel, rfl⟩ : ∃ g, fuel = g + 1 := ⟨fuel - 1, by omega⟩
    rw [frameLoop]
    rw [if_pos (by omega)]
    simp only [screenshot_eq, bind, Except.bind]
    have hnext : (f + 1) % 2 ^ 64 = f + 1 := Nat.mod_eq_of_lt (by omega)
    rw [hnext, ih (f + 1) fuel _ (by omega) (by omega)]
    rw [List.range'_succ, List.foldl_cons]
    congr 2
    simp [captureFrame]

theorem calls_foldl_captureFrame {σ : Type} (r : GlScene σ) (l : List Nat) (w : World σ) :
    (l.foldl (captureFrame r) w).calls =
      w.calls ++ l.flatMap (fun i => [Call.draw i, Call.screenshot i]) := by
  induction l generalizing w with
  | nil => simp
  | cons i l ih =>
    rw [List.foldl_cons, ih]
    simp [captureFrame]

theorem canOpen_foldl_captureFrame {σ : Type} (r : GlScene σ) (l : List Nat) (w : World σ) :
    (l.foldl (captureFrame r) w).fs.canOpen = w.fs.canOpen := by
  induction l generalizing w with
  | nil => rfl
  | cons i l ih =>
    rw [List.foldl_cons, ih]
    simp only [captureFrame]
    split <;> rfl

/-! ## The header -/

theorem tgaHeader_eq (width height bpp : Int) (upsidedown : Bool) :
    tgaHeader width height bpp upsidedown =
      [0, 0, 2, 0, 0, 0, 0, 0, 0, 0, 0, 0, u8 (Int.land width 255), u8 (width >>> (8 : Nat)),
        u8 (Int.land height 255), u8 (height >>> (8 : Nat)), u8 bpp,
        if upsidedown then 0x20 else 0] := by
  cases upsidedown <;> rfl

theorem tgaHeader_length (width height bpp : Int) (upsidedown : Bool) :
    (tgaHeader width height bpp upsidedown).length = TARGAHEADERSIZE := by
  rw [tgaHeader_eq]; rfl

theorem land_255 (x : Int) (hx : 0 ≤ x) : Int.land x 255 = x % 256 := by
  lift x to ℕ using hx
  have h : Int.land (x : Int) 255 = ((x &&& 255 : Nat) : Int) := rfl
  rw [h]
  have := Nat.and_pow_two_sub_one_eq_mod x 8
  norm_num at this
  rw [this]
  norm_cast

theorem u8_val (x : Int) (h0 : 0 ≤ x) (h1 : x < 256) : (((u8 x).val : Nat) : Int) = x := by
  simp only [u8]
  omega

/-- The two bytes stored for a dimension in `0..65535` are its little-endian
encoding. -/
theorem u8_low_high (x : Int) (h0 : 0 ≤ x) (h1 : x ≤ 65535) :
    (((u8 (Int.land x 255)).val : Nat) : Int) + 256 * (((u8 (x >>> (8 : Nat))).val : Nat) : Int) = x := by
  rw [land_255 x h0, Int.shiftRight_eq_div_pow]
  rw [u8_val (x % 256) (by omega) (by omega)]
  have : ((2 ^ 8 : Nat) : Int) = 256 := by norm_num
  rw [this, u8_val (x / 256) (by omega) (by omega)]
  omega

/-! ## The swap is an involution -/

theorem exchangeRedBlue_involutive (B n : Nat) (hB : 3 ≤ B) (data : List Byte)
    (hlen : data.length = n * B) : exchangeRedBlue B (exchangeRedBlue B data) = data := by
  apply List.ext_getElem?
  intro j
  have hj : j = (j / B) * B + j % B := by
    rw [Nat.mul_comm]; exact (Nat.div_add_mod j B).symm
  have hr : j % B < B := Nat.mod_lt _ (by omega)
  have hlen' : (exchangeRedBlue B data).length = n * B := by
    rw [length_exchangeRedBlue]; exact hlen
  generalize j / B = p at hj
  generalize j % B = r at hj hr
  subst hj
  rw [getElem?_exchangeRedBlue B n hB _ hlen' p r hr]
  have g0 := getElem?_exchangeRedBlue B n hB data hlen p 0 (by omega)
  have g2 := getElem?_exchangeRedBlue B n hB data hlen p 2 (by omega)
  have gr := getElem?_exchangeRedBlue B n hB data hlen p r hr
  simp only [Nat.add_zero] at g0
  by_cases hr0 : r = 0
  · subst hr0
    simp only [if_true, Nat.add_zero]
    rw [g2]; simp
  · by_cases hr2 : r = 2
    · subst hr2
      simp only [if_true]
      rw [g0]; simp
    · simp only [hr0, hr2, if_false] at gr ⊢
      exact gr

/-! ## What a call that returned `true` tells -/

theorem swapRedBlue_overflow (data : List Byte) (width height bpp : Int) (B : Nat)
    (hbytes : Int.tdiv bpp 8 = B) (hB : 3 ≤ B)
    (hlen : (data.length : Int) = width * height * B)
    (hbig : INT_MAX < width * height * B) :
    swapRedBlue data width height bpp = .error .overflow := by
  obtain ⟨h0, _, _⟩ := pixel_count width height B hB data.length hlen
  unfold swapRedBlue
  by_cases hwh : width * height ≤ INT_MAX
  · rw [int32_ok (by simp only [INT_MIN]; omega) hwh]
    simp only [bind, Except.bind, hbytes]
    rw [int32_overflow hbig]
  · rw [int32_overflow (by omega)]
    rfl

/-- A call on a buffer of exactly `width * height * B` bytes, `B ≥ 3`, that returned
`true` opened its file and had a representable size. -/
theorem Image_WriteTGA_true_inv (fs : FileSystem) (name : String) (data : List Byte)
    (width height bpp : Int) (upsidedown : Bool) (B : Nat)
    (hbytes : Int.tdiv bpp 8 = B) (hB : 3 ≤ B)
    (hlen : (data.length : Int) = width * height * B)
    (out : List Byte) (fs' : FileSystem)
    (hres : Image_WriteTGA fs name data width height bpp upsidedown = .ok (true, out, fs')) :
    fs.canOpen name = true ∧ width * height * B ≤ INT_MAX := by
  have hopen : fs.canOpen name = true := by
    by_contra hc
    have hc' : fs.canOpen name = false := by simpa using hc
    rw [Image_WriteTGA_fail fs name data width height bpp upsidedown hc'] at hres
    simp at hres
  refine ⟨hopen, ?_⟩
  by_contra hbig
  have hbig' : INT_MAX < width * height * B := by omega
  unfold Image_WriteTGA at hres
  rw [fopen_wb_ok fs name hopen] at hres
  simp only [swapRedBlue_overflow data width height bpp B hbytes hB hlen hbig', bind,
    Except.bind] at hres
  simp at hres

/-! ## Files written by the frame loop -/

theorem toInt_eq (i : Nat) (h : (i : Int) ≤ INT_MAX) : toInt i = i := by
  simp only [INT_MAX] at h
  unfold toInt
  omega

theorem tganame_ne (a b : Int) (ha : 0 ≤ a ∧ a ≤ INT_MAX) (hb : 0 ≤ b ∧ b ≤ INT_MAX)
    (hne : a ≠ b) : tganame a ≠ tganame b := by
  intro heq
  have h1 := frameOfName_tganame a ha.1 ha.2
  have h2 := frameOfName_tganame b hb.1 hb.2
  rw [heq, h2] at h1
  omega

theorem content_captureFrame {σ : Type} (r : GlScene σ) (w : World σ) (i : Nat) (p : String) :
    (captureFrame r w i).fs.content p =
      if p = tganame (toInt i) ∧ w.fs.canOpen (tganame (toInt i)) = true then
        some (frameFile r (r.draw w.scene (toUInt32 i)))
      else w.fs.content p := by
  simp only [captureFrame, frameFile]
  by_cases hopen : w.fs.canOpen (tganame (toInt i)) = true
  · by_cases hp : p = tganame (toInt i)
    · simp [hopen, hp, FileSystem.store]
    · simp [hopen, hp, FileSystem.store]
  · simp [hopen]

/-- Frames with other names leave the file `p` alone. -/
theorem content_foldl_other {σ : Type} (r : GlScene σ) (p : String) (l : List Nat)
    (w : World σ) (h : ∀ i ∈ l, tganame (toInt i) ≠ p) :
    (l.foldl (captureFrame r) w).fs.content p = w.fs.content p := by
  induction l generalizing w with
  | nil => rfl
  | cons i l ih =>
    rw [List.foldl_cons, ih _ (fun j hj => h j (List.mem_cons_of_mem _ hj)),
      content_captureFrame]
    have : ¬ (p = tganame (toInt i)) := fun hp => h i (List.mem_cons_self _ _) hp.symm
    simp [this]

theorem scene_foldl_captureFrame {σ : Type} (r : GlScene σ) (l : List Nat) (w : World σ) :
    (l.foldl (captureFrame r) w).scene = l.foldl (fun s i => r.draw s (toUInt32 i)) w.scene := by
  induction l generalizing w with
  | nil => rfl
  | cons i l ih =>
    rw [List.foldl_cons, List.foldl_cons, ih]
    rfl

/-- After the whole loop, the file named after frame `k` holds the image of frame `k`
if it could be opened and is untouched otherwise. -/
theorem content_after_loop {σ : Type} (r : GlScene σ) (fs : FileSystem) (N k : Nat)
    (hN : (N : Int) ≤ INT_MAX) (hk1 : 1 ≤ k) (hkN : k ≤ N) :
    ((List.range' 1 N).foldl (captureFrame r)
        ⟨fs, r.set_viewport r.create WIDTH HEIGHT, []⟩).fs.content (tganame k) =
      if fs.canOpen (tganame k) = true then some (frameFile r (sceneAt r k))
      else fs.content (tganame k) := by
  obtain ⟨j, rfl⟩ : ∃ j, k = j + 1 := ⟨k - 1, by omega⟩
  obtain ⟨m, rfl⟩ : ∃ m, N = j + 1 + m := ⟨N - (j + 1), by omega⟩
  have hsplit : List.range' 1 (j + 1 + m) =
      List.range' 1 j ++ (j + 1) :: List.range' (j + 2) m := by
    have h1 : List.range' 1 (j + 1 + m) = List.range' 1 j ++ List.range' (1 + j) (m + 1) := by
      rw [List.range'_append_1]; congr 1; omega
    rw [h1, List.range'_succ, Nat.add_comm 1 j]
  have hmax : ((j + 1 + m : Nat) : Int) ≤ 2147483647 := hN
  have hname : ∀ i : Nat, 1 ≤ i → i ≤ j + 1 + m → i ≠ j + 1 →
      tganame (toInt i) ≠ tganame ((j + 1 : Nat) : Int) := by
    intro i hi1 hiN hik
    rw [toInt_eq i (by simp only [INT_MAX]; omega)]
    exact tganame_ne _ _ ⟨by omega, by simp only [INT_MAX]; omega⟩
      ⟨by omega, by simp only [INT_MAX]; omega⟩ (by omega)
  have hkk : toInt (j + 1) = ((j + 1 : Nat) : Int) :=
    toInt_eq (j + 1) (by simp only [INT_MAX]; omega)
  have hscene : r.draw ((List.range' 1 j).foldl (fun s i => r.draw s (toUInt32 i))
      (r.set_viewport r.create WIDTH HEIGHT)) (toUInt32 (j + 1)) = sceneAt r (j + 1) := by
    unfold sceneAt
    rw [List.range'_concat, List.foldl_append]
    simp [Nat.add_comm]
  rw [hsplit, List.foldl_append, List.foldl_cons]
  rw [content_foldl_other r _ _ _ (by
    intro i hi
    rw [List.mem_range'_1] at hi
    exact hname i (by omega) (by omega) (by omega))]
  rw [content_captureFrame, hkk, canOpen_foldl_captureFrame, scene_foldl_captureFrame]
  rw [content_foldl_other r _ _ _ (by
    intro i hi
    rw [List.mem_range'_1] at hi
    exact hname i (by omega) (by omega) (by omega))]
  simp only [hscene, true_and]

theorem main_with_setup {σ : Type} (r : GlScene σ) (egl : Egl) (s_verbose : Bool)
    (N : Nat) (fs : FileSystem) (hsetup : egl.setupSucceeds s_verbose = true) :
    main_with r egl s_verbose N fs =
      (captureFrames r N fs >>= fun cw => .ok (cw.1, cw.2.fs, cw.2.calls)) := by
  simp only [Egl.setupSucceeds, Bool.and_eq_true, Bool.or_eq_true, Bool.not_eq_true',
    beq_iff_eq] at hsetup
  obtain ⟨⟨⟨⟨⟨⟨⟨⟨h1, h2⟩, h3⟩, h4⟩, h5⟩, h6⟩, h7⟩, h8⟩, h9⟩ := hsetup
  cases s_verbose with
  | false => simp [main_with, h1, h2, h3, h5, h6, h7, h8, h9]
  | true =>
    have h4' : egl.getConfigsCount = true ∧ egl.getConfigs = true := by simpa using h4
    simp [main_with, h1, h2, h3, h4'.1, h4'.2, h5, h6, h7, h8, h9]

theorem bytes_of_bpp (bpp : Int) (h : bpp = 24 ∨ bpp = 32) :
    ∃ B : Nat, 3 ≤ B ∧ Int.tdiv bpp 8 = B ∧ bpp / 8 = B ∧ (bpp / 8).toNat = B := by
  rcases h with rfl | rfl
  · exact ⟨3, by decide, by decide, by decide, by decide⟩
  · exact ⟨4, by decide, by decide, by decide, by decide⟩

/-- The 2x1, 32-bit, top-down scenario of the specification, run on a file system in
which every path can be opened. -/
theorem sample_call :
    Image_WriteTGA emptyFS "frame0001.tga" [10, 20, 30, 40, 50, 60, 70, 80] 2 1 32 false =
      .ok (true, [30, 20, 10, 40, 70, 60, 50, 80],
        emptyFS.store "frame0001.tga"
          (tgaHeader 2 1 32 false ++ [30, 20, 10, 40, 70, 60, 50, 80])) := by
  have h := Image_WriteTGA_ok emptyFS "frame0001.tga" [10, 20, 30, 40, 50, 60, 70, 80] 2 1 32
    false 4 (by decide) (by decide) (by decide) (by decide) rfl
  have e : exchangeRedBlue 4 [10, 20, 30, 40, 50, 60, 70, 80] =
      [30, 20, 10, 40, 70, 60, 50, 80] := by decide
  rw [e] at h
  exact h

/-! ## The claims -/

/-- C1: for every width and height in 0..65535, every bits-per-pixel value in 0..255
and both values of the orientation flag, the header built by `Image_WriteTGA` has
exactly 18 bytes; byte 2 is 2, bytes 12-13 and 14-15 are the little-endian width and
height, byte 16 is the bits per pixel, byte 17 is 0x20 when the flag is set and 0
otherwise, and every other byte is 0. -/
theorem tgaHeader_layout (width height bpp : Int) (upsidedown : Bool)
    (hw : 0 ≤ width ∧ width ≤ 65535) (hh : 0 ≤ height ∧ height ≤ 65535)
    (hb : 0 ≤ bpp ∧ bpp ≤ 255) :
    ∃ w0 w1 h0 h1 b : Byte,
      tgaHeader width height bpp upsidedown =
        [0, 0, 2, 0, 0, 0, 0, 0, 0, 0, 0, 0, w0, w1, h0, h1, b,
          if upsidedown then 0x20 else 0] ∧
      ((w0.val : Nat) : Int) + 256 * ((w1.val : Nat) : Int) = width ∧
      ((h0.val : Nat) : Int) + 256 * ((h1.val : Nat) : Int) = height ∧
      ((b.val : Nat) : Int) = bpp ∧
      (tgaHeader width height bpp upsidedown).length = 18 :=
  ⟨_, _, _, _, _, tgaHeader_eq width height bpp upsidedown,
    u8_low_high width hw.1 hw.2, u8_low_high height hh.1 hh.2,
    u8_val bpp hb.1 (by omega), tgaHeader_length width height bpp upsidedown⟩

/-- Witness for C1: the boundary pairs 1x1 and 65535x1. -/
theorem tgaHeader_layout_witness :
    tgaHeader 1 1 24 false = [0, 0, 2, 0, 0, 0, 0, 0, 0, 0, 0, 0, 1, 0, 1, 0, 24, 0] ∧
    tgaHeader 65535 1 32 true =
      [0, 0, 2, 0, 0, 0, 0, 0, 0, 0, 0, 0, 255, 255, 1, 0, 32, 32] ∧
    ∃ w0 w1 h0 h1 b : Byte,
      tgaHeader 65535 1 32 true =
        [0, 0, 2, 0, 0, 0, 0, 0, 0, 0, 0, 0, w0, w1, h0, h1, b,
          if true = true then 0x20 else 0] ∧
      ((w0.val : Nat) : Int) + 256 * ((w1.val : Nat) : Int) = 65535 ∧
      ((h0.val : Nat) : Int) + 256 * ((h1.val : Nat) : Int) = 1 ∧
      ((b.val : Nat) : Int) = 32 ∧
      (tgaHeader 65535 1 32 true).length = 18 :=
  ⟨by decide, by decide,
    tgaHeader_layout 65535 1 32 true (by decide) (by decide) (by decide)⟩

/-- C2: for bits per pixel 24 or 32 and a buffer of exactly
`width * height * (bpp / 8)` bytes whose size fits in an `int`, a call whose file
opens returns `true`, and the file then holds exactly the 18-byte header followed by
the input buffer with bytes 0 and 2 of every pixel exchanged, so it is
`18 + width * height * (bpp / 8)` bytes long with nothing after the payload. -/
theorem Image_WriteTGA_file (fs : FileSystem) (name : String) (data : List Byte)
    (width height bpp : Int) (upsidedown : Bool)
    (hbpp : bpp = 24 ∨ bpp = 32)
    (hlen : (data.length : Int) = width * height * (bpp / 8))
    (hfit : width * height * (bpp / 8) ≤ INT_MAX)
    (hopen : fs.canOpen name = true) :
    Image_WriteTGA fs name data width height bpp upsidedown =
      .ok (true, exchangeRedBlue (bpp / 8).toNat data,
        fs.store name (tgaHeader width height bpp upsidedown ++
          exchangeRedBlue (bpp / 8).toNat data)) ∧
    (tgaHeader width height bpp upsidedown).length = 18 ∧
    (((tgaHeader width height bpp upsidedown ++
        exchangeRedBlue (bpp / 8).toNat data).length : Nat) : Int) =
      18 + width * height * (bpp / 8) := by
  obtain ⟨B, hB, ht, hd, hn⟩ := bytes_of_bpp bpp hbpp
  rw [hd] at hlen hfit
  rw [hn, hd]
  refine ⟨Image_WriteTGA_ok fs name data width height bpp upsidedown B ht hB hlen hfit hopen,
    tgaHeader_length _ _ _ _, ?_⟩
  rw [List.length_append, tgaHeader_length, length_exchangeRedBlue, ← hlen]
  simp [TARGAHEADERSIZE]

/-- Witness for C2: the 2x1, 32-bit, top-down scenario of the specification. -/
theorem Image_WriteTGA_file_witness :
    (Image_WriteTGA emptyFS "frame0001.tga" [10, 20, 30, 40, 50, 60, 70, 80] 2 1 32 false =
      .ok (true, exchangeRedBlue ((32 : Int) / 8).toNat [10, 20, 30, 40, 50, 60, 70, 80],
        emptyFS.store "frame0001.tga" (tgaHeader 2 1 32 false ++
          exchangeRedBlue ((32 : Int) / 8).toNat [10, 20, 30, 40, 50, 60, 70, 80]))) ∧
    tgaHeader 2 1 32 false = [0, 0, 2, 0, 0, 0, 0, 0, 0, 0, 0, 0, 2, 0, 1, 0, 32, 0] ∧
    exchangeRedBlue ((32 : Int) / 8).toNat [10, 20, 30, 40, 50, 60, 70, 80] =
      [30, 20, 10, 40, 70, 60, 50, 80] :=
  ⟨(Image_WriteTGA_file emptyFS "frame0001.tga" [10, 20, 30, 40, 50, 60, 70, 80] 2 1 32 false
      (Or.inr rfl) (by decide) (by decide) rfl).1, by decide, by decide⟩

/-- C3: for bits per pixel 24 or 32 (3 or 4 bytes per pixel) and a buffer of exactly
`width * height * bytes` bytes, the call succeeds whenever the file opens and the
size fits an `int`, and after every call that returned `true` the caller's buffer has
the same length and, for every pixel `p` below `width * height`, the pixel lies
inside the buffer, its new byte 0 is the old byte 2, its new byte 2 is the old byte
0, and every other byte of it is unchanged. -/
theorem Image_WriteTGA_buffer (fs : FileSystem) (name : String) (data : List Byte)
    (width height bpp : Int) (upsidedown : Bool) (bytes : Nat)
    (hbpp : (bpp = 24 ∧ bytes = 3) ∨ (bpp = 32 ∧ bytes = 4))
    (hlen : (data.length : Int) = width * height * bytes) :
    (fs.canOpen name = true → width * height * bytes ≤ INT_MAX →
      ∃ out fs', Image_WriteTGA fs name data width height bpp upsidedown =
        .ok (true, out, fs')) ∧
    ∀ (out : List Byte) (fs' : FileSystem),
      Image_WriteTGA fs name data width height bpp upsidedown = .ok (true, out, fs') →
      out.length = data.length ∧
      ∀ p : Nat, (p : Int) < width * height →
        p * bytes + bytes ≤ data.length ∧
        out[p * bytes]? = data[p * bytes + 2]? ∧
        out[p * bytes + 2]? = data[p * bytes]? ∧
        ∀ r : Nat, r < bytes → r ≠ 0 → r ≠ 2 →
          out[p * bytes + r]? = data[p * bytes + r]? := by
  have hB : 3 ≤ bytes := by rcases hbpp with ⟨_, h⟩ | ⟨_, h⟩ <;> omega
  have ht : Int.tdiv bpp 8 = bytes := by
    rcases hbpp with ⟨rfl, rfl⟩ | ⟨rfl, rfl⟩ <;> decide
  refine ⟨fun hopen hfit => ⟨_, _, Image_WriteTGA_ok fs name data width height bpp upsidedown
    bytes ht hB hlen hfit hopen⟩, ?_⟩
  intro out fs' hres
  obtain ⟨hopen, hfit⟩ := Image_WriteTGA_true_inv fs name data width height bpp upsidedown
    bytes ht hB hlen out fs' hres
  rw [Image_WriteTGA_ok fs name data width height bpp upsidedown bytes ht hB hlen hfit hopen]
    at hres
  have hout : out = exchangeRedBlue bytes data := by
    have := Except.ok.inj hres
    exact (Prod.mk.inj (Prod.mk.inj this).2).1.symm
  obtain ⟨h0, _, hn⟩ := pixel_count width height bytes hB data.length hlen
  subst hout
  refine ⟨length_exchangeRedBlue _ _, ?_⟩
  intro p hp
  have hp' : p < (width * height).toNat := by omega
  have h1 : (p + 1) * bytes ≤ (width * height).toNat * bytes := Nat.mul_le_mul_right bytes hp'
  have h1b : (p + 1) * bytes = p * bytes + bytes := by ring
  have g := getElem?_exchangeRedBlue bytes _ hB data hn p
  refine ⟨by omega, ?_, ?_, ?_⟩
  · simpa using g 0 (by omega)
  · simpa using g 2 (by omega)
  · intro r hr hr0 hr2
    simpa [hr0, hr2] using g r hr

/-- Witness for C3: the 2x1, 32-bit buffer of the specification. -/
theorem Image_WriteTGA_buffer_witness :
    ([30, 20, 10, 40, 70, 60, 50, 80] : List Byte).length =
      ([10, 20, 30, 40, 50, 60, 70, 80] : List Byte).length ∧
    ∀ p : Nat, (p : Int) < 2 * 1 →
      p * 4 + 4 ≤ ([10, 20, 30, 40, 50, 60, 70, 80] : List Byte).length ∧
      ([30, 20, 10, 40, 70, 60, 50, 80] : List Byte)[p * 4]? =
        ([10, 20, 30, 40, 50, 60, 70, 80] : List Byte)[p * 4 + 2]? ∧
      ([30, 20, 10, 40, 70, 60, 50, 80] : List Byte)[p * 4 + 2]? =
        ([10, 20, 30, 40, 50, 60, 70, 80] : List Byte)[p * 4]? ∧
      ∀ r : Nat, r < 4 → r ≠ 0 → r ≠ 2 →
        ([30, 20, 10, 40, 70, 60, 50, 80] : List Byte)[p * 4 + r]? =
          ([10, 20, 30, 40, 50, 60, 70, 80] : List Byte)[p * 4 + r]? :=
  (Image_WriteTGA_buffer emptyFS "frame0001.tga" [10, 20, 30, 40, 50, 60, 70, 80] 2 1 32 false
    4 (Or.inr ⟨rfl, rfl⟩) (by decide)).2 [30, 20, 10, 40, 70, 60, 50, 80]
    (emptyFS.store "frame0001.tga" (tgaHeader 2 1 32 false ++ [30, 20, 10, 40, 70, 60, 50, 80]))
    sample_call

theorem drop_header (width height bpp : Int) (upsidedown : Bool) (payload : List Byte) :
    (tgaHeader width height bpp upsidedown ++ payload).drop TARGAHEADERSIZE = payload := by
  rw [← tgaHeader_length width height bpp upsidedown]
  exact List.drop_left _ _

/-- C4: for bits per pixel 24 or 32 and a buffer of exactly
`width * height * (bpp / 8)` bytes, the red/blue swap of `Image_WriteTGA` is its own
inverse: the call succeeds whenever the file opens and the size fits an `int`, and
after every call that returned `true`, running the swap on the mutated buffer gives
back the original buffer, and the decoder that drops the 18-byte header of the
written file and applies the same swap to the payload recovers exactly the pixels
passed to the encoder. -/
theorem swap_round_trip (fs : FileSystem) (name : String) (data : List Byte)
    (width height bpp : Int) (upsidedown : Bool)
    (hbpp : bpp = 24 ∨ bpp = 32)
    (hlen : (data.length : Int) = width * height * (bpp / 8)) :
    (fs.canOpen name = true → width * height * (bpp / 8) ≤ INT_MAX →
      ∃ out fs', Image_WriteTGA fs name data width height bpp upsidedown =
        .ok (true, out, fs')) ∧
    ∀ (out : List Byte) (fs' : FileSystem),
      Image_WriteTGA fs name data width height bpp upsidedown = .ok (true, out, fs') →
      swapRedBlue out width height bpp = .ok ((data.length : Int), data) ∧
      ∃ file, fs'.content name = some file ∧ file.length = 18 + data.length ∧
        decodeTGA file width height bpp = .ok data := by
  obtain ⟨B, hB, ht, hd, hn⟩ := bytes_of_bpp bpp hbpp
  rw [hd] at hlen
  rw [hd]
  refine ⟨fun hopen hfit => ⟨_, _, Image_WriteTGA_ok fs name data width height bpp upsidedown
    B ht hB hlen hfit hopen⟩, ?_⟩
  intro out fs' hres
  obtain ⟨hopen, hfit⟩ := Image_WriteTGA_true_inv fs name data width height bpp upsidedown
    B ht hB hlen out fs' hres
  rw [Image_WriteTGA_ok fs name data width height bpp upsidedown B ht hB hlen hfit hopen]
    at hres
  have hinj := Prod.mk.inj (Prod.mk.inj (Except.ok.inj hres)).2
  have hout : out = exchangeRedBlue B data := hinj.1.symm
  have hfs : fs' = fs.store name (tgaHeader width height bpp upsidedown ++
      exchangeRedBlue B data) := hinj.2.symm
  obtain ⟨_, _, hnB⟩ := pixel_count width height B hB data.length hlen
  have hlen2 : (((exchangeRedBlue B data).length : Nat) : Int) = width * height * B := by
    rw [length_exchangeRedBlue]; exact hlen
  have hback : swapRedBlue (exchangeRedBlue B data) width height bpp =
      .ok ((data.length : Int), data) := by
    rw [swapRedBlue_ok _ width height bpp B ht hB hlen2 hfit,
      exchangeRedBlue_involutive B _ hB data hnB, length_exchangeRedBlue]
  subst hout hfs
  refine ⟨hback, tgaHeader width height bpp upsidedown ++ exchangeRedBlue B data,
    by simp [FileSystem.store], ?_, ?_⟩
  · rw [List.length_append, tgaHeader_length, length_exchangeRedBlue]; rfl
  · unfold decodeTGA
    rw [drop_header, hback]
    rfl

/-- Witness for C4: the 2x1, 32-bit buffer of the specification. -/
theorem swap_round_trip_witness :
    swapRedBlue [30, 20, 10, 40, 70, 60, 50, 80] 2 1 32 =
      .ok ((([10, 20, 30, 40, 50, 60, 70, 80] : List Byte).length : Int),
        [10, 20, 30, 40, 50, 60, 70, 80]) ∧
    ∃ file, (emptyFS.store "frame0001.tga" (tgaHeader 2 1 32 false ++
        [30, 20, 10, 40, 70, 60, 50, 80])).content "frame0001.tga" = some file ∧
      file.length = 18 + ([10, 20, 30, 40, 50, 60, 70, 80] : List Byte).length ∧
      decodeTGA file 2 1 32 = .ok [10, 20, 30, 40, 50, 60, 70, 80] :=
  (swap_round_trip emptyFS "frame0001.tga" [10, 20, 30, 40, 50, 60, 70, 80] 2 1 32 false
    (Or.inr rfl) (by decide)).2 [30, 20, 10, 40, 70, 60, 50, 80]
    (emptyFS.store "frame0001.tga" (tgaHeader 2 1 32 false ++ [30, 20, 10, 40, 70, 60, 50, 80]))
    sample_call

/-- C5: when the target path cannot be opened, `Image_WriteTGA` returns `false` and
the file system is exactly what it was (no file created, truncated or written); a
later call then behaves exactly as if the failed call had never happened, and when
its path can be opened (24 or 32 bits per pixel, buffer of the stated size fitting
an `int`) it returns `true` and stores header and payload in its file. -/
theorem open_failure_is_harmless (fs : FileSystem) (name : String) (data : List Byte)
    (width height bpp : Int) (upsidedown : Bool) (hfail : fs.canOpen name = false) :
    Image_WriteTGA fs name data width height bpp upsidedown = .ok (false, data, fs) ∧
    (∀ (name2 : String) (data2 : List Byte) (width2 height2 bpp2 : Int) (upsidedown2 : Bool),
      (Image_WriteTGA fs name data width height bpp upsidedown >>= fun r =>
        Image_WriteTGA r.2.2 name2 data2 width2 height2 bpp2 upsidedown2) =
      Image_WriteTGA fs name2 data2 width2 height2 bpp2 upsidedown2) ∧
    (∀ (name2 : String) (data2 : List Byte) (width2 height2 bpp2 : Int) (upsidedown2 : Bool),
      fs.canOpen name2 = true → bpp2 = 24 ∨ bpp2 = 32 →
      (data2.length : Int) = width2 * height2 * (bpp2 / 8) →
      width2 * height2 * (bpp2 / 8) ≤ INT_MAX →
      (Image_WriteTGA fs name data width height bpp upsidedown >>= fun r =>
        Image_WriteTGA r.2.2 name2 data2 width2 height2 bpp2 upsidedown2) =
      .ok (true, exchangeRedBlue (bpp2 / 8).toNat data2,
        fs.store name2 (tgaHeader width2 height2 bpp2 upsidedown2 ++
          exchangeRedBlue (bpp2 / 8).toNat data2))) := by
  have h1 := Image_WriteTGA_fail fs name data width height bpp upsidedown hfail
  refine ⟨h1, ?_, ?_⟩
  · intro name2 data2 width2 height2 bpp2 upsidedown2
    rw [h1]; rfl
  · intro name2 data2 width2 height2 bpp2 upsidedown2 hopen hbpp hlen hfit
    obtain ⟨B, hB, ht, hd, hn⟩ := bytes_of_bpp bpp2 hbpp
    rw [hd] at hlen hfit
    rw [h1, hn]
    exact Image_WriteTGA_ok fs name2 data2 width2 height2 bpp2 upsidedown2 B ht hB hlen hfit
      hopen

/-- Witness for C5: a failed call for `frame0001.tga`, with an older file present. -/
theorem open_failure_is_harmless_witness :
    Image_WriteTGA oneFileFS "frame0001.tga" [10, 20, 30, 40, 50, 60, 70, 80] 2 1 32 false =
      .ok (false, [10, 20, 30, 40, 50, 60, 70, 80], oneFileFS) ∧
    oneFileFS.content "old.tga" = some [1, 2, 3] ∧
    oneFileFS.content "frame0001.tga" = none :=
  ⟨(open_failure_is_harmless oneFileFS "frame0001.tga" [10, 20, 30, 40, 50, 60, 70, 80] 2 1 32
      false (by decide)).1, by decide, by decide⟩

/-- C6: once the EGL setup has succeeded, for every frame count `N` (an `unsigned`)
and every file system, hence every pattern of encoder successes and failures, `main`
returns exit code 0 and the frame loop has made exactly the calls `draw(i)` then
`screenshot(i)` for `i = 1, ..., N` in ascending order; the final state is the one
reached by capturing the frames 1 to `N` one after the other, where each frame
stores its file exactly when its own name can be opened.  For `N` up to 2147483647
the file named after frame `k` finally holds the image of frame `k` when it could be
opened and is what it was otherwise, and files with other names are untouched. -/
theorem main_capture_sequence {σ : Type} (r : GlScene σ) (egl : Egl) (s_verbose : Bool)
    (N : Nat) (fs : FileSystem) (hsetup : egl.setupSucceeds s_verbose = true)
    (hN : N < 2 ^ 32) :
    ∃ w : World σ, main_with r egl s_verbose N fs = .ok (0, w.fs, w.calls) ∧
      w = (List.range' 1 N).foldl (captureFrame r)
        ⟨fs, r.set_viewport r.create WIDTH HEIGHT, []⟩ ∧
      w.calls = (List.range' 1 N).flatMap (fun i => [Call.draw i, Call.screenshot i]) ∧
      ((N : Int) ≤ 2147483647 →
        (∀ k : Nat, 1 ≤ k → k ≤ N →
          w.fs.content (tganame k) =
            if fs.canOpen (tganame k) = true then some (frameFile r (sceneAt r k))
            else fs.content (tganame k)) ∧
        (∀ p : String, (∀ k : Nat, 1 ≤ k → k ≤ N → tganame k ≠ p) →
          w.fs.content p = fs.content p)) := by
  refine ⟨_, ?_, rfl, ?_, ?_⟩
  · rw [main_with_setup r egl s_verbose N fs hsetup]
    unfold captureFrames
    dsimp only
    rw [frameLoop_eq r N hN N 1 (N + 1) _ (by omega) (by omega)]
    rfl
  · rw [calls_foldl_captureFrame]
    rfl
  · intro hmax
    refine ⟨fun k hk1 hkN => content_after_loop r fs N k hmax hk1 hkN, ?_⟩
    intro p hp
    rw [content_foldl_other r p _ _ (by
      intro i hi
      rw [List.mem_range'_1] at hi
      rw [toInt_eq i (by simp only [INT_MAX]; omega)]
      exact hp i (by omega) (by omega))]

/-- Witness for C6: `main` itself (two frames) when no file can be opened. -/
theorem main_capture_sequence_witness :
    ∃ w : World Unit, main nullScene eglOk lockedFS = .ok (0, w.fs, w.calls) ∧
      w.calls = [Call.draw 1, Call.screenshot 1, Call.draw 2, Call.screenshot 2] :=
  (main_capture_sequence nullScene eglOk true 2 lockedFS
    (by decide) (by decide)).imp
    (fun _ h => ⟨h.1, h.2.2.1⟩)

/-- Counterexample to C7 as stated: for frame index 1000000 the pattern produces
`frame1000000.tga`, but the name `screenshot` uses is cut to `frame1000000.tg`. -/
theorem tganame_cut_at_million :
    (1 : Int) ≤ 1000000 ∧
    String.mk (frameText 1000000) = "frame1000000.tga" ∧
    tganame 1000000 = "frame1000000.tg" ∧
    tganame 1000000 ≠ String.mk (frameText 1000000) := by
  decide

/-- C7, amended: for every frame index `i ≥ 1` passed to `screenshot` the file name is
the first 15 characters of the text of the pattern `frame%04d.tga` (the characters
`frame`, the decimal digits of `i` left-padded with zeros to at least four digits,
then `.tga`), and for `i ≤ 999999` it is that whole text. -/
theorem tganame_pattern (i : Int) (h1 : 1 ≤ i) :
    tganame i = String.mk (("frame".data ++
      (List.replicate (4 - (decimal i.toNat).length) '0' ++ decimal i.toNat) ++
      ".tga".data).take 15) ∧
    (i ≤ 999999 → tganame i = String.mk ("frame".data ++
      (List.replicate (4 - (decimal i.toNat).length) '0' ++ decimal i.toNat) ++
      ".tga".data)) := by
  have hcut : tganame i = String.mk (("frame".data ++
      (List.replicate (4 - (decimal i.toNat).length) '0' ++ decimal i.toNat) ++
      ".tga".data).take 15) := by
    simp only [tganame, snprintf, frameText, fmt04i_nonneg i (by omega)]
  refine ⟨hcut, ?_⟩
  intro h2
  rw [hcut]
  congr 1
  apply List.take_of_length_le
  have hd : (decimal i.toNat).length ≤ 5 + 1 := decimal_length_le _ 5 (by omega)
  simp only [frame_data, tga_data, List.length_append, List.length_replicate,
    List.length_cons, List.length_nil]
  omega

/-- Witness for C7 (amended): frame index 1 gives `frame0001.tga`. -/
theorem tganame_pattern_witness : tganame 1 = "frame0001.tga" :=
  (tganame_pattern 1 (by decide)).2 (by decide)

/-- Counterexample to C8 as stated: 16 bits per pixel is a multiple of 8 and at least
16, yet on a 1x1 buffer of 1*1*2 bytes the swap loop reads `data[2]`, outside the
buffer. -/
theorem swap_out_of_bounds_at_16 :
    (16 : Int) % 8 = 0 ∧ (16 : Int) ≥ 16 ∧
    ((([10, 20] : List Byte).length : Nat) : Int) = 1 * 1 * (16 / 8) ∧
    readByte [10, 20] (0 + 2) = .error .outOfBounds ∧
    swapRedBlue [10, 20] 1 1 16 = .error .outOfBounds ∧
    Image_WriteTGA emptyFS "frame0001.tga" [10, 20] 1 1 16 false = .error .outOfBounds :=
  ⟨by decide, by decide, by decide, rfl, rfl, rfl⟩

/-- C8, amended: for every bits-per-pixel value that is a multiple of 8 and at least
24 and every buffer of exactly `width * height * (bpp / 8)` bytes, the swap of
`Image_WriteTGA` never touches a byte outside the buffer: every index `i` the loop
visits (a multiple of the pixel size below the buffer size) has `i + 2` inside the
buffer as well, the swap never ends in an out-of-bounds fault, and it runs to
completion whenever the buffer size fits an `int`. -/
theorem swap_in_bounds (data : List Byte) (width height bpp : Int)
    (hmul : bpp % 8 = 0) (h24 : 24 ≤ bpp)
    (hlen : (data.length : Int) = width * height * (bpp / 8)) :
    (∀ i : Nat, i % (bpp / 8).toNat = 0 → i < data.length → i + 2 < data.length) ∧
    swapRedBlue data width height bpp ≠ .error .outOfBounds ∧
    (width * height * (bpp / 8) ≤ INT_MAX →
      swapRedBlue data width height bpp =
        .ok ((data.length : Int), exchangeRedBlue (bpp / 8).toNat data)) := by
  obtain ⟨B, hB, hd⟩ : ∃ B : Nat, 3 ≤ B ∧ bpp / 8 = B := ⟨(bpp / 8).toNat, by omega, by omega⟩
  have ht : Int.tdiv bpp 8 = B := by
    rw [Int.tdiv_eq_ediv (by omega) (by decide), hd]
  have hn : (bpp / 8).toNat = B := by omega
  rw [hd] at hlen
  rw [hn, hd]
  obtain ⟨_, _, hnB⟩ := pixel_count width height B hB data.length hlen
  refine ⟨?_, ?_, ?_⟩
  · intro i hi hlt
    obtain ⟨q, hq⟩ : ∃ q, i = q * B := ⟨i / B, by
      have := Nat.div_add_mod i B
      rw [hi] at this
      rw [Nat.mul_comm]; omega⟩
    subst hq
    have hqn : q < (width * height).toNat := by
      by_contra hc
      have := Nat.mul_le_mul_right B (Nat.le_of_not_lt hc)
      omega
    have h1 : (q + 1) * B ≤ (width * height).toNat * B := Nat.mul_le_mul_right B hqn
    have h1b : (q + 1) * B = q * B + B := by ring
    omega
  · by_cases hfit : width * height * (B : Int) ≤ INT_MAX
    · rw [swapRedBlue_ok data width height bpp B ht hB hlen hfit]
      simp
    · rw [swapRedBlue_overflow data width height bpp B ht hB hlen (by omega)]
      simp
  · intro hfit
    exact swapRedBlue_ok data width height bpp B ht hB hlen hfit

/-- Witness for C8 (amended): one 24-bit pixel. -/
theorem swap_in_bounds_witness :
    (∀ i : Nat, i % ((24 : Int) / 8).toNat = 0 → i < ([10, 20, 30] : List Byte).length →
      i + 2 < ([10, 20, 30] : List Byte).length) ∧
    swapRedBlue [10, 20, 30] 1 1 24 ≠ .error .outOfBounds ∧
    ((1 : Int) * 1 * (24 / 8) ≤ INT_MAX →
      swapRedBlue [10, 20, 30] 1 1 24 =
        .ok ((([10, 20, 30] : List Byte).length : Int),
          exchangeRedBlue ((24 : Int) / 8).toNat [10, 20, 30])) :=
  swap_in_bounds [10, 20, 30] 1 1 24 (by decide) (by decide) (by decide)

/-- C9: when the target path cannot be opened, `Image_WriteTGA` returns `false`
before the swap runs and the caller's buffer is unchanged; whatever the call returns,
it returns `true` exactly when the path could be opened, a `false` result leaves the
buffer as it was and a `true` result leaves the output of the swap; for 24 or 32 bits
per pixel and a buffer of the stated size the call always returns, and the buffer is
the red/blue-exchanged one exactly when the result is `true`. -/
theorem swap_iff_success (fs : FileSystem) (name : String) (data : List Byte)
    (width height bpp : Int) (upsidedown : Bool) :
    (fs.canOpen name = false →
      Image_WriteTGA fs name data width height bpp upsidedown = .ok (false, data, fs)) ∧
    (∀ (ret : Bool) (out : List Byte) (fs' : FileSystem),
      Image_WriteTGA fs name data width height bpp upsidedown = .ok (ret, out, fs') →
      (ret = true ↔ fs.canOpen name = true) ∧ (ret = false → out = data) ∧
      (ret = true → ∃ size, swapRedBlue data width height bpp = .ok (size, out))) ∧
    (bpp = 24 ∨ bpp = 32 → (data.length : Int) = width * height * (bpp / 8) →
      width * height * (bpp / 8) ≤ INT_MAX →
      ∃ fs', Image_WriteTGA fs name data width height bpp upsidedown =
        .ok (fs.canOpen name,
          if fs.canOpen name then exchangeRedBlue (bpp / 8).toNat data else data, fs')) := by
  refine ⟨Image_WriteTGA_fail fs name data width height bpp upsidedown, ?_, ?_⟩
  · intro ret out fs' hres
    cases hopen : fs.canOpen name with
    | false =>
      rw [Image_WriteTGA_fail fs name data width height bpp upsidedown hopen] at hres
      have hinj := Prod.mk.inj (Except.ok.inj hres)
      have hret : ret = false := hinj.1.symm
      have hout : out = data := (Prod.mk.inj hinj.2).1.symm
      subst hret
      exact ⟨by simp, fun _ => hout, by simp⟩
    | true =>
      unfold Image_WriteTGA at hres
      rw [fopen_wb_ok fs name hopen] at hres
      simp only [bind, Except.bind] at hres
      cases hsw : swapRedBlue data width height bpp with
      | error e => rw [hsw] at hres; simp at hres
      | ok sd =>
        obtain ⟨size, d⟩ := sd
        rw [hsw] at hres
        simp only at hres
        cases hrb : readBlock d size with
        | error e => rw [hrb] at hres; simp at hres
        | ok payload =>
          rw [hrb] at hres
          simp only at hres
          have hinj := Prod.mk.inj (Except.ok.inj hres)
          have hret : ret = true := hinj.1.symm
          have hout : out = d := (Prod.mk.inj hinj.2).1.symm
          subst hret hout
          exact ⟨by simp, by simp, fun _ => ⟨size, rfl⟩⟩
  · intro hbpp hlen hfit
    obtain ⟨B, hB, ht, hd, hn⟩ := bytes_of_bpp bpp hbpp
    rw [hd] at hlen hfit
    rw [hn]
    cases hopen : fs.canOpen name with
    | false =>
      exact ⟨fs, by
        rw [Image_WriteTGA_fail fs name data width height bpp upsidedown hopen]; simp⟩
    | true =>
      exact ⟨fs.store name (tgaHeader width height bpp upsidedown ++ exchangeRedBlue B data),
        by
          rw [Image_WriteTGA_ok fs name data width height bpp upsidedown B ht hB hlen hfit
            hopen]
          simp⟩

/-- Witness for C9: the sample buffer on a file system where nothing can be opened. -/
theorem swap_iff_success_witness :
    Image_WriteTGA lockedFS "frame0001.tga" [10, 20, 30, 40, 50, 60, 70, 80] 2 1 32 false =
      .ok (false, [10, 20, 30, 40, 50, 60, 70, 80], lockedFS) :=
  (swap_iff_success lockedFS "frame0001.tga" [10, 20, 30, 40, 50, 60, 70, 80] 2 1 32 false).1
    rfl

/-- C10: the name `screenshot` builds holds at most 15 characters, it always contains
`frame` followed by the complete zero-padded decimal digits of the frame index, and
two distinct frame indices in 1..2147483647 never get the same name, so no frame
overwrites the file of another frame. -/
theorem tganame_distinct (a b : Int) (ha : 1 ≤ a ∧ a ≤ 2147483647)
    (hb : 1 ≤ b ∧ b ≤ 2147483647) (hne : a ≠ b) :
    tganame a ≠ tganame b ∧ (tganame a).length ≤ 15 ∧
    ("frame".data ++ (List.replicate (4 - (decimal a.toNat).length) '0' ++ decimal a.toNat))
      <+: (tganame a).data := by
  refine ⟨?_, ?_, ?_⟩
  · intro heq
    have h1 := frameOfName_tganame a (by omega) ha.2
    have h2 := frameOfName_tganame b (by omega) hb.2
    rw [heq, h2] at h1
    omega
  · simp only [tganame, snprintf, String.length]
    exact (List.length_take_le _ _)
  · rw [tganame_data a (by omega) ha.2, fmt04i_nonneg a (by omega), frame_data]
    exact List.prefix_append _ _

/-- Witness for C10: the two largest frame indices. -/
theorem tganame_distinct_witness :
    tganame 2147483646 ≠ tganame 2147483647 ∧ (tganame 2147483646).length ≤ 15 ∧
    ("frame".data ++ (List.replicate (4 - (decimal (2147483646 : Int).toNat).length) '0' ++
      decimal (2147483646 : Int).toNat)) <+: (tganame 2147483646).data :=
  tganame_distinct 2147483646 2147483647 (by decide) (by decide) (by decide)

end SimpleCube
